import Mathlib

/-!
Verification development for the Excel image extractor (src/app.py).

The program's byte strings are modelled as `List Nat` (one entry per byte).
Python's `bytes.find(sub, start)` is modelled by `findFrom` (returning
`Option Nat` instead of `-1`), and Python's clamping slice `b[i:j]` by
`pySlice`.  The two external collaborators that the source delegates to —
PIL (`get_image_dimensions`) and openpyxl (workbook parsing inside
`extract_images_from_xlsx`) — are abstracted: PIL as an arbitrary function
`dims : List Nat → Option Nat × Option Nat` supplying the `width`/`height`
fields, and openpyxl as the list of per-sheet images (resolved image bytes
plus top-left anchor) that the library yields for the workbook, over which
the source's own loop body (app.py lines 63-107) is embedded faithfully.
All other functions are translated directly from the source.
-/

/-- The normalized image entry built by the program (a Python dict in the
source).  `payload` holds the raw image bytes before base64 encoding; the
`base64`/`data_uri` fields of the source are deterministic encodings of
`payload` and carry no extra information, so they are not duplicated here. -/
structure ImageRecord where
  index : Nat
  sheet : String
  cell : Option String
  fmt : String
  mime : String
  width : Option Nat
  height : Option Nat
  size_bytes : Nat
  payload : List Nat
deriving Repr, DecidableEq

/-- One image yielded by openpyxl for a sheet: the resolved image bytes
(`none` when every data attribute of the drawing is missing, i.e. the
source's `img_data` stays `None`) and the top-left anchor `(col, row)`
(`none` when the drawing has no `anchor._from`). -/
structure SheetImage where
  data : Option (List Nat)
  anchor : Option (Nat × Nat)
deriving Repr, DecidableEq

/-- PNG signature `\x89PNG\r\n\x1a\n` (app.py line 155). -/
def pngSig : List Nat := [137, 80, 78, 71, 13, 10, 26, 10]

/-- JPEG signature `\xff\xd8\xff` used by the OLE scan (app.py line 157). -/
def jpegSigOle : List Nat := [255, 216, 255]

/-- GIF signature `GIF87a` (app.py line 159). -/
def gifSig87 : List Nat := [71, 73, 70, 56, 55, 97]

/-- GIF signature `GIF89a` (app.py line 160). -/
def gifSig89 : List Nat := [71, 73, 70, 56, 57, 97]

/-- ASCII marker `IEND` (app.py line 174). -/
def iendMarker : List Nat := [73, 69, 78, 68]

/-- JPEG end-of-image marker `\xff\xd9` (app.py line 192). -/
def jpegEndMarker : List Nat := [255, 217]

/-- GIF trailer byte `\x3b` (app.py line 211). -/
def gifTrailer : List Nat := [59]

/-- ZIP magic `PK\x03\x04` (app.py line 42). -/
def zipMagic : List Nat := [80, 75, 3, 4]

/-- Compound-document magic `\xd0\xcf\x11\xe0\xa1\xb1\x1a\xe1` (app.py line 45). -/
def cdfMagic : List Nat := [208, 207, 17, 224, 161, 177, 26, 225]

/-- `sub` occurs in `hay` at position `i` (a full occurrence, as required
by Python's `bytes.find`). -/
def occursAt (hay sub : List Nat) (i : Nat) : Bool :=
  decide ((hay.drop i).take sub.length = sub)

/-- Helper for `findFrom`: try positions `i, i+1, ...`, `fuel` of them. -/
def findFromAux (hay sub : List Nat) : Nat → Nat → Option Nat
  | _, 0 => none
  | i, fuel + 1 =>
    if occursAt hay sub i then some i else findFromAux hay sub (i + 1) fuel

/-- Python's `hay.find(sub, start)`: the least position `≥ start` at which
`sub` fully occurs in `hay`, `none` standing for the source's `-1`. -/
def findFrom (hay sub : List Nat) (start : Nat) : Option Nat :=
  findFromAux hay sub start (hay.length + 1 - start)

/-- Python's clamping slice `l[a:b]` for non-negative indices. -/
def pySlice (l : List Nat) (a b : Nat) : List Nat :=
  (l.take b).drop a

/-- Number of positions at which `sub` occurs in `hay`. -/
def countOcc (hay sub : List Nat) : Nat :=
  ((List.range hay.length).filter (fun i => occursAt hay sub i)).length

/-- `create_image_entry` (app.py lines 306-324).  `dims` abstracts
`get_image_dimensions` (PIL). -/
def create_image_entry (dims : List Nat → Option Nat × Option Nat)
    (img_data : List Nat) (img_format : String) (index : Nat) : ImageRecord :=
  { index := index
    sheet := "unknown"
    cell := none
    fmt := img_format
    mime := "image/" ++ img_format
    width := (dims img_data).1
    height := (dims img_data).2
    size_bytes := img_data.length
    payload := img_data }

/-- PNG termination rule (app.py lines 174-177 and 281-285): first `IEND`
at or after the start, candidate is the slice up to `IEND`'s position
plus 12. -/
def pngCandidate (bytes : List Nat) (pos : Nat) : Option (List Nat) :=
  match findFrom bytes iendMarker pos with
  | some iend => some (pySlice bytes pos (iend + 12))
  | none => none

/-- JPEG termination rule (app.py lines 191-195 and 287-291): first
`\xff\xd9` at or after the start, candidate includes the marker. -/
def jpegCandidate (bytes : List Nat) (pos : Nat) : Option (List Nat) :=
  match findFrom bytes jpegEndMarker pos with
  | some e => some (pySlice bytes pos (e + 2))
  | none => none

/-- GIF termination rule of the OLE scan (app.py lines 210-213): first
trailer byte searched from `pos + 6`. -/
def gifCandidateOle (bytes : List Nat) (pos : Nat) : Option (List Nat) :=
  match findFrom bytes gifTrailer (pos + 6) with
  | some e => some (pySlice bytes pos (e + 1))
  | none => none

/-- GIF termination rule of `extract_image_by_format` (app.py lines
293-298): first trailer byte searched from `pos + 10`. -/
def gifCandidateRaw (bytes : List Nat) (pos : Nat) : Option (List Nat) :=
  match findFrom bytes gifTrailer (pos + 10) with
  | some e => some (pySlice bytes pos (e + 1))
  | none => none

/-- `extract_image_by_format` (app.py lines 276-303). -/
def extract_image_by_format (data : List Nat) (start_pos : Nat) (fmt : String) :
    Option (List Nat) :=
  if fmt = "png" then pngCandidate data start_pos
  else if fmt = "jpeg" then jpegCandidate data start_pos
  else if fmt = "gif" then gifCandidateRaw data start_pos
  else none

/-- One `while True` scan pass of `extract_images_from_ole` (app.py lines
167-218): repeatedly find the next signature occurrence, extract a
candidate with the format's termination rule, keep it when strictly longer
than `ms` bytes, and resume the search at the match position plus one.
`fuel` bounds the iteration count (the source loop terminates because the
search offset strictly increases; `fuel = bytes.length + 1` always
suffices). -/
def scanPassAux (bytes sig : List Nat) (ex : Nat → Option (List Nat))
    (ms : Nat) (fmt : String) (dims : List Nat → Option Nat × Option Nat) :
    Nat → List ImageRecord → Nat → List ImageRecord
  | _, acc, 0 => acc
  | offset, acc, fuel + 1 =>
    match findFrom bytes sig offset with
    | none => acc
    | some pos =>
      match ex pos with
      | some img =>
        if ms < img.length then
          scanPassAux bytes sig ex ms fmt dims (pos + 1)
            (acc ++ [create_image_entry dims img fmt acc.length]) fuel
        else scanPassAux bytes sig ex ms fmt dims (pos + 1) acc fuel
      | none => scanPassAux bytes sig ex ms fmt dims (pos + 1) acc fuel

/-- `extract_images_from_ole` (app.py lines 145-223): PNG pass, then JPEG
pass, then the two GIF passes, each appending to the same list, each with
the `> 100` minimum-size test. -/
def extract_images_from_ole (dims : List Nat → Option Nat × Option Nat)
    (bytes : List Nat) : List ImageRecord :=
  let fuel := bytes.length + 1
  let s1 := scanPassAux bytes pngSig (pngCandidate bytes) 100 "png" dims 0 [] fuel
  let s2 := scanPassAux bytes jpegSigOle (jpegCandidate bytes) 100 "jpeg" dims 0 s1 fuel
  let s3 := scanPassAux bytes gifSig87 (gifCandidateOle bytes) 100 "gif" dims 0 s2 fuel
  scanPassAux bytes gifSig89 (gifCandidateOle bytes) 100 "gif" dims 0 s3 fuel

/-- One `while True` scan pass of `extract_images_from_xls_raw` (app.py
lines 248-268): like the OLE passes but with the shared `found_positions`
set (modelled as a list of already-seen start offsets), the
`extract_image_by_format` termination rules and the `> 200` minimum-size
test.  A match at an offset already in `found` is skipped; every other
match's offset is added to `found` before the extraction is attempted. -/
def rawPassAux (bytes sig : List Nat) (fmt : String)
    (dims : List Nat → Option Nat × Option Nat) :
    Nat → List Nat → List ImageRecord → Nat → List Nat × List ImageRecord
  | _, found, acc, 0 => (found, acc)
  | offset, found, acc, fuel + 1 =>
    match findFrom bytes sig offset with
    | none => (found, acc)
    | some pos =>
      if pos ∈ found then rawPassAux bytes sig fmt dims (pos + 1) found acc fuel
      else
        match extract_image_by_format bytes pos fmt with
        | some img =>
          if 200 < img.length then
            rawPassAux bytes sig fmt dims (pos + 1) (pos :: found)
              (acc ++ [create_image_entry dims img fmt acc.length]) fuel
          else rawPassAux bytes sig fmt dims (pos + 1) (pos :: found) acc fuel
        | none => rawPassAux bytes sig fmt dims (pos + 1) (pos :: found) acc fuel

/-- The signature table of `extract_images_from_xls_raw` (app.py lines
237-244), in source order. -/
def rawSignatureList : List (List Nat × String) :=
  [(pngSig, "png"),
   ([255, 216, 255, 224], "jpeg"),
   ([255, 216, 255, 225], "jpeg"),
   ([255, 216, 255, 219], "jpeg"),
   (gifSig89, "gif"),
   (gifSig87, "gif")]

/-- The `for signature, fmt in signatures` loop of
`extract_images_from_xls_raw`, threading `found_positions` and the record
list through the passes. -/
def rawScanLoop (bytes : List Nat) (dims : List Nat → Option Nat × Option Nat) :
    List (List Nat × String) → List Nat → List ImageRecord →
    List Nat × List ImageRecord
  | [], found, acc => (found, acc)
  | (sig, f) :: rest, found, acc =>
    let st := rawPassAux bytes sig f dims 0 found acc (bytes.length + 1)
    rawScanLoop bytes dims rest st.1 st.2

/-- `extract_images_from_xls_raw` (app.py lines 226-273). -/
def extract_images_from_xls_raw (dims : List Nat → Option Nat × Option Nat)
    (bytes : List Nat) : List ImageRecord :=
  (rawScanLoop bytes dims rawSignatureList [] []).2

/-- `extract_images_from_xls` (app.py lines 118-142): the OLE scan, and the
raw scan only when the OLE scan found nothing. -/
def extract_images_from_xls (dims : List Nat → Option Nat × Option Nat)
    (bytes : List Nat) : List ImageRecord :=
  let images := extract_images_from_ole dims bytes
  if images = [] then extract_images_from_xls_raw dims bytes else images

/-- `detect_image_format` (app.py lines 327-341). -/
def detect_image_format (d : List Nat) : String :=
  if d.take 8 = pngSig then "png"
  else if d.take 2 = [255, 216] then "jpeg"
  else if d.take 4 = [71, 73, 70, 56] then "gif"
  else if d.take 4 = [82, 73, 70, 70] ∧ 12 < d.length ∧
      pySlice d 8 12 = [87, 69, 66, 80] then "webp"
  else if d.take 2 = [66, 77] then "bmp"
  else "png"

/-- `get_anchor_cell` (app.py lines 344-354): renders the top-left anchor
as `chr(65 + col)` followed by `row + 1`.  (Python's `chr` rejects code
points above `0x10FFFF` where Lean's `Char.ofNat` substitutes `'\0'`; all
statements below stay far below that bound.) -/
def get_anchor_cell (anchor : Option (Nat × Nat)) : Option String :=
  match anchor with
  | none => none
  | some (col, row) => some (String.mk [Char.ofNat (65 + col)] ++ toString (row + 1))

/-- The inner `for idx, img in enumerate(sheet._images)` loop of
`extract_images_from_xlsx` (app.py lines 67-107), over the images openpyxl
yields for one sheet: an image with resolved non-empty data is appended
with `index = len(images)`, the detected format, the anchor cell and
`size_bytes = len(img_data)`. -/
def xlsxImagesLoop (dims : List Nat → Option Nat × Option Nat)
    (sheetName : String) :
    List SheetImage → List ImageRecord → List ImageRecord
  | [], acc => acc
  | im :: rest, acc =>
    match im.data with
    | some d =>
      if d = [] then xlsxImagesLoop dims sheetName rest acc
      else
        xlsxImagesLoop dims sheetName rest
          (acc ++ [{ index := acc.length
                     sheet := sheetName
                     cell := get_anchor_cell im.anchor
                     fmt := detect_image_format d
                     mime := "image/" ++ detect_image_format d
                     width := (dims d).1
                     height := (dims d).2
                     size_bytes := d.length
                     payload := d }])
    | none => xlsxImagesLoop dims sheetName rest acc

/-- The outer `for sheet_name in wb.sheetnames` loop of
`extract_images_from_xlsx` (app.py lines 63-107). -/
def xlsxSheetsLoop (dims : List Nat → Option Nat × Option Nat) :
    List (String × List SheetImage) → List ImageRecord → List ImageRecord
  | [], acc => acc
  | sh :: rest, acc => xlsxSheetsLoop dims rest (xlsxImagesLoop dims sh.1 sh.2 acc)

/-- `extract_images_from_xlsx` (app.py lines 50-115), with openpyxl's
workbook parsing abstracted as the per-sheet image list it yields. -/
def extract_images_from_xlsx (dims : List Nat → Option Nat × Option Nat)
    (sheets : List (String × List SheetImage)) : List ImageRecord :=
  xlsxSheetsLoop dims sheets []

/-- `detect_excel_format` (app.py lines 31-47). -/
def detect_excel_format (bytes : List Nat) : Option String :=
  if bytes.take 4 = zipMagic then some "xlsx"
  else if bytes.take 8 = cdfMagic then some "xls"
  else none

/-- ASCII lowercasing of one character, the fragment of Python's
`str.lower` exercised by the `.xls`/`.xlsx` filename hints. -/
def lowerChar (c : Char) : Char :=
  if 65 ≤ c.toNat ∧ c.toNat ≤ 90 then Char.ofNat (c.toNat + 32) else c

/-- The format-resolution logic of `extract_images_from_excel` (app.py
lines 382-393): content detection first, then the filename-extension hint,
then the `xlsx` default. -/
def resolve_excel_format (bytes : List Nat) (filename : List Char) : String :=
  match detect_excel_format bytes with
  | some f => f
  | none =>
    let lf := filename.map lowerChar
    if ['.', 'x', 'l', 's', 'x'].isSuffixOf lf then "xlsx"
    else if ['.', 'x', 'l', 's'].isSuffixOf lf then "xls"
    else "xlsx"

/-- `extract_images_from_excel` (app.py lines 371-400): dispatch on the
resolved format.  `sheets` is the openpyxl abstraction consumed only by
the xlsx path. -/
def extract_images_from_excel (dims : List Nat → Option Nat × Option Nat)
    (bytes : List Nat) (filename : List Char)
    (sheets : List (String × List SheetImage)) : List ImageRecord :=
  if resolve_excel_format bytes filename = "xlsx" then
    extract_images_from_xlsx dims sheets
  else extract_images_from_xls dims bytes

/-- A concrete dimension decoder for closed statements: PIL fails on the
synthetic inputs used below, so both dimensions are `None`. -/
def dimsNone : List Nat → Option Nat × Option Nat := fun _ => (none, none)

/-! ### Basic facts about `occursAt`, `findFrom` and `pySlice` -/

theorem occursAt_iff (hay sub : List Nat) (i : Nat) :
    occursAt hay sub i = true ↔ (hay.drop i).take sub.length = sub := by
  simp [occursAt]

theorem occursAt_bound (hay sub : List Nat) (i : Nat) (hs : sub ≠ [])
    (h : occursAt hay sub i = true) : i + sub.length ≤ hay.length := by
  rw [occursAt_iff] at h
  have hlen : ((hay.drop i).take sub.length).length = sub.length := by rw [h]
  simp [List.length_take, List.length_drop] at hlen
  have hpos : 0 < sub.length := List.length_pos.mpr hs
  omega

theorem findFromAux_some (hay sub : List Nat) :
    ∀ fuel i j, findFromAux hay sub i fuel = some j →
      i ≤ j ∧ occursAt hay sub j = true ∧
        ∀ k, i ≤ k → k < j → occursAt hay sub k = false := by
  intro fuel
  induction fuel with
  | zero => intro i j h; simp [findFromAux] at h
  | succ n ih =>
    intro i j h
    by_cases hi : occursAt hay sub i = true
    · simp [findFromAux, hi] at h
      subst h
      exact ⟨Nat.le_refl _, hi, fun k h1 h2 => absurd h1 (by omega)⟩
    · have hi' : occursAt hay sub i = false := by
        cases hx : occursAt hay sub i
        · rfl
        · exact absurd hx hi
      simp [findFromAux, hi'] at h
      obtain ⟨h1, h2, h3⟩ := ih (i + 1) j h
      refine ⟨by omega, h2, fun k hk1 hk2 => ?_⟩
      by_cases hk : k = i
      · subst hk; exact hi'
      · exact h3 k (by omega) hk2

theorem findFromAux_none (hay sub : List Nat) :
    ∀ fuel i, findFromAux hay sub i fuel = none →
      ∀ k, i ≤ k → k < i + fuel → occursAt hay sub k = false := by
  intro fuel
  induction fuel with
  | zero => intro i _ k h1 h2; omega
  | succ n ih =>
    intro i h k h1 h2
    by_cases hi : occursAt hay sub i = true
    · simp [findFromAux, hi] at h
    · have hi' : occursAt hay sub i = false := by
        cases hx : occursAt hay sub i
        · rfl
        · exact absurd hx hi
      simp [findFromAux, hi'] at h
      by_cases hk : k = i
      · subst hk; exact hi'
      · exact ih (i + 1) h k (by omega) (by omega)

theorem findFrom_some (hay sub : List Nat) (start j : Nat)
    (h : findFrom hay sub start = some j) :
    start ≤ j ∧ occursAt hay sub j = true ∧
      ∀ k, start ≤ k → k < j → occursAt hay sub k = false :=
  findFromAux_some hay sub _ start j h

theorem findFrom_le (hay sub : List Nat) (start k : Nat) (hs : sub ≠ [])
    (hocc : occursAt hay sub k = true) (hk : start ≤ k) :
    ∃ j, findFrom hay sub start = some j ∧ j ≤ k := by
  cases hf : findFrom hay sub start with
  | none =>
    exfalso
    have hb := occursAt_bound hay sub k hs hocc
    have hpos : 0 < sub.length := List.length_pos.mpr hs
    have := findFromAux_none hay sub _ start hf k hk (by omega)
    rw [this] at hocc
    exact Bool.false_ne_true hocc
  | some j =>
    obtain ⟨h1, h2, h3⟩ := findFrom_some hay sub start j hf
    refine ⟨j, rfl, ?_⟩
    by_contra hc
    have := h3 k hk (by omega)
    rw [this] at hocc
    exact Bool.false_ne_true hocc

theorem pySlice_length (l : List Nat) (a b : Nat) :
    (pySlice l a b).length = min b l.length - a := by
  simp [pySlice, List.length_drop, List.length_take]

theorem occursAt_slice (h s : List Nat) (a b k : Nat)
    (hb : a + k + s.length ≤ b) :
    occursAt (pySlice h a b) s k = occursAt h s (a + k) := by
  have key : ((pySlice h a b).drop k).take s.length =
      (h.drop (a + k)).take s.length := by
    rw [pySlice, List.drop_drop, List.drop_take, List.take_take]
    congr 1
    omega
  simp only [occursAt, key]

/-! ### Structure of one OLE scan pass -/

theorem scanPassAux_grows (bytes sig : List Nat) (ex : Nat → Option (List Nat))
    (ms : Nat) (fmt : String) (dims : List Nat → Option Nat × Option Nat) :
    ∀ fuel offset acc, ∃ t,
      scanPassAux bytes sig ex ms fmt dims offset acc fuel = acc ++ t := by
  intro fuel
  induction fuel with
  | zero => intro offset acc; exact ⟨[], by simp [scanPassAux]⟩
  | succ n ih =>
    intro offset acc
    cases hf : findFrom bytes sig offset with
    | none => exact ⟨[], by simp [scanPassAux, hf]⟩
    | some pos =>
      cases he : ex pos with
      | none =>
        obtain ⟨t, ht⟩ := ih (pos + 1) acc
        exact ⟨t, by simp [scanPassAux, hf, he, ht]⟩
      | some img =>
        by_cases hm : ms < img.length
        · obtain ⟨t, ht⟩ := ih (pos + 1) (acc ++ [create_image_entry dims img fmt acc.length])
          refine ⟨[create_image_entry dims img fmt acc.length] ++ t, ?_⟩
          simp [scanPassAux, hf, he, hm, ht]
        · obtain ⟨t, ht⟩ := ih (pos + 1) acc
          exact ⟨t, by simp [scanPassAux, hf, he, hm, ht]⟩

theorem scanPassAux_sound (bytes sig : List Nat) (ex : Nat → Option (List Nat))
    (ms : Nat) (fmt : String) (dims : List Nat → Option Nat × Option Nat) :
    ∀ fuel offset acc r,
      r ∈ scanPassAux bytes sig ex ms fmt dims offset acc fuel →
      r ∈ acc ∨ ∃ pos img, offset ≤ pos ∧ occursAt bytes sig pos = true ∧
        ex pos = some img ∧ ms < img.length ∧
        r.payload = img ∧ r.fmt = fmt ∧ r.size_bytes = img.length := by
  intro fuel
  induction fuel with
  | zero => intro offset acc r h; exact Or.inl (by simpa [scanPassAux] using h)
  | succ n ih =>
    intro offset acc r h
    cases hf : findFrom bytes sig offset with
    | none => simp only [scanPassAux, hf] at h; exact Or.inl h
    | some pos =>
      obtain ⟨hle, hocc, -⟩ := findFrom_some bytes sig offset pos hf
      cases he : ex pos with
      | none =>
        simp only [scanPassAux, hf, he] at h
        rcases ih (pos + 1) acc r h with h' | ⟨p, img, hp, rest⟩
        · exact Or.inl h'
        · exact Or.inr ⟨p, img, by omega, rest⟩
      | some img =>
        by_cases hm : ms < img.length
        · simp only [scanPassAux, hf, he, if_pos hm] at h
          rcases ih (pos + 1) _ r h with h' | ⟨p, img', hp, rest⟩
          · rcases List.mem_append.mp h' with h'' | h''
            · exact Or.inl h''
            · have hr : r = create_image_entry dims img fmt acc.length := by
                simpa using h''
              subst hr
              exact Or.inr ⟨pos, img, hle, hocc, he, hm, rfl, rfl, rfl⟩
          · exact Or.inr ⟨p, img', by omega, rest⟩
        · simp only [scanPassAux, hf, he, if_neg hm] at h
          rcases ih (pos + 1) acc r h with h' | ⟨p, img', hp, rest⟩
          · exact Or.inl h'
          · exact Or.inr ⟨p, img', by omega, rest⟩

theorem scanPassAux_complete (bytes sig : List Nat) (ex : Nat → Option (List Nat))
    (ms : Nat) (fmt : String) (dims : List Nat → Option Nat × Option Nat)
    (hs : sig ≠ []) :
    ∀ fuel offset acc pos img,
      occursAt bytes sig pos = true → offset ≤ pos → pos < offset + fuel →
      ex pos = some img → ms < img.length →
      ∃ r, r ∈ scanPassAux bytes sig ex ms fmt dims offset acc fuel ∧
        r.payload = img ∧ r.fmt = fmt := by
  intro fuel
  induction fuel with
  | zero => intro offset acc pos img _ h1 h2; omega
  | succ n ih =>
    intro offset acc pos img hocc h1 h2 hex hm
    obtain ⟨j, hj, hjle⟩ := findFrom_le bytes sig offset pos hs hocc h1
    obtain ⟨hoj, -, -⟩ := findFrom_some bytes sig offset j hj
    by_cases hjp : j = pos
    · subst hjp
      simp only [scanPassAux, hj, hex, if_pos hm]
      obtain ⟨t, ht⟩ := scanPassAux_grows bytes sig ex ms fmt dims n (j + 1)
        (acc ++ [create_image_entry dims img fmt acc.length])
      refine ⟨create_image_entry dims img fmt acc.length, ?_, rfl, rfl⟩
      rw [ht]
      simp
    · have hjlt : j < pos := by omega
      have hnext : pos < (j + 1) + n := by omega
      cases he : ex j with
      | none =>
        simp only [scanPassAux, hj, he]
        exact ih (j + 1) acc pos img hocc (by omega) hnext hex hm
      | some img' =>
        by_cases hm' : ms < img'.length
        · simp only [scanPassAux, hj, he, if_pos hm']
          exact ih (j + 1) _ pos img hocc (by omega) hnext hex hm
        · simp only [scanPassAux, hj, he, if_neg hm']
          exact ih (j + 1) acc pos img hocc (by omega) hnext hex hm

/-! ### Record-assembly invariants: indices and sizes -/

/-- The `index` fields of `l` are exactly `0, 1, ..., l.length - 1`. -/
def wellIndexed (l : List ImageRecord) : Prop :=
  l.map ImageRecord.index = List.range l.length

/-- Every record's `size_bytes` equals the byte length of its payload. -/
def sizesOk (l : List ImageRecord) : Prop :=
  ∀ r, r ∈ l → r.size_bytes = r.payload.length

theorem wellIndexed_append (l : List ImageRecord) (e : ImageRecord)
    (h1 : wellIndexed l) (h2 : e.index = l.length) :
    wellIndexed (l ++ [e]) := by
  unfold wellIndexed at h1 ⊢
  simp [List.range_succ, h1, h2]

theorem sizesOk_append (l : List ImageRecord) (e : ImageRecord)
    (h1 : sizesOk l) (h2 : e.size_bytes = e.payload.length) :
    sizesOk (l ++ [e]) := by
  intro r hr
  rcases List.mem_append.mp hr with h | h
  · exact h1 r h
  · rw [List.mem_singleton.mp h]; exact h2

theorem scanPassAux_good (bytes sig : List Nat) (ex : Nat → Option (List Nat))
    (ms : Nat) (fmt : String) (dims : List Nat → Option Nat × Option Nat) :
    ∀ fuel offset acc, wellIndexed acc → sizesOk acc →
      wellIndexed (scanPassAux bytes sig ex ms fmt dims offset acc fuel) ∧
      sizesOk (scanPassAux bytes sig ex ms fmt dims offset acc fuel) := by
  intro fuel
  induction fuel with
  | zero => intro offset acc h1 h2; simpa [scanPassAux] using ⟨h1, h2⟩
  | succ n ih =>
    intro offset acc h1 h2
    cases hf : findFrom bytes sig offset with
    | none => simpa [scanPassAux, hf] using ⟨h1, h2⟩
    | some pos =>
      cases he : ex pos with
      | none => simp only [scanPassAux, hf, he]; exact ih (pos + 1) acc h1 h2
      | some img =>
        by_cases hm : ms < img.length
        · simp only [scanPassAux, hf, he, if_pos hm]
          exact ih (pos + 1) _
            (wellIndexed_append acc _ h1 rfl) (sizesOk_append acc _ h2 rfl)
        · simp only [scanPassAux, hf, he, if_neg hm]
          exact ih (pos + 1) acc h1 h2

/-! ### Structure of the raw XLS scan -/

theorem rawPassAux_grows (bytes sig : List Nat) (fmt : String)
    (dims : List Nat → Option Nat × Option Nat) :
    ∀ fuel offset found acc, ∃ t,
      (rawPassAux bytes sig fmt dims offset found acc fuel).2 = acc ++ t := by
  intro fuel
  induction fuel with
  | zero => intro offset found acc; exact ⟨[], by simp [rawPassAux]⟩
  | succ n ih =>
    intro offset found acc
    cases hf : findFrom bytes sig offset with
    | none => exact ⟨[], by simp [rawPassAux, hf]⟩
    | some pos =>
      by_cases hmem : pos ∈ found
      · obtain ⟨t, ht⟩ := ih (pos + 1) found acc
        exact ⟨t, by simp [rawPassAux, hf, hmem, ht]⟩
      · cases he : extract_image_by_format bytes pos fmt with
        | none =>
          obtain ⟨t, ht⟩ := ih (pos + 1) (pos :: found) acc
          exact ⟨t, by simp [rawPassAux, hf, hmem, he, ht]⟩
        | some img =>
          by_cases hm : 200 < img.length
          · obtain ⟨t, ht⟩ := ih (pos + 1) (pos :: found)
              (acc ++ [create_image_entry dims img fmt acc.length])
          
            refine ⟨[create_image_entry dims img fmt acc.length] ++ t, ?_⟩
            simp [rawPassAux, hf, hmem, he, hm, ht]
          · obtain ⟨t, ht⟩ := ih (pos + 1) (pos :: found) acc
            exact ⟨t, by simp [rawPassAux, hf, hmem, he, hm, ht]⟩

theorem rawPassAux_sound (bytes sig : List Nat) (fmt : String)
    (dims : List Nat → Option Nat × Option Nat) :
    ∀ fuel offset found acc r,
      r ∈ (rawPassAux bytes sig fmt dims offset found acc fuel).2 →
      r ∈ acc ∨ ∃ pos img, occursAt bytes sig pos = true ∧
        extract_image_by_format bytes pos fmt = some img ∧ 200 < img.length ∧
        r.payload = img ∧ r.fmt = fmt ∧ r.size_bytes = img.length := by
  intro fuel
  induction fuel with
  | zero => intro offset found acc r h; exact Or.inl (by simpa [rawPassAux] using h)
  | succ n ih =>
    intro offset found acc r h
    cases hf : findFrom bytes sig offset with
    | none => simp only [rawPassAux, hf] at h; exact Or.inl h
    | some pos =>
      obtain ⟨-, hocc, -⟩ := findFrom_some bytes sig offset pos hf
      by_cases hmem : pos ∈ found
      · simp only [rawPassAux, hf, if_pos hmem] at h
        exact ih (pos + 1) found acc r h
      · cases he : extract_image_by_format bytes pos fmt with
        | none =>
          simp only [rawPassAux, hf, if_neg hmem, he] at h
          exact ih (pos + 1) (pos :: found) acc r h
        | some img =>
          by_cases hm : 200 < img.length
          · simp only [rawPassAux, hf, if_neg hmem, he, if_pos hm] at h
            rcases ih (pos + 1) (pos :: found) _ r h with h' | rest
            · rcases List.mem_append.mp h' with h'' | h''
              · exact Or.inl h''
              · have hr : r = create_image_entry dims img fmt acc.length := by
                  simpa using h''
                subst hr
                exact Or.inr ⟨pos, img, hocc, he, hm, rfl, rfl, rfl⟩
            · exact Or.inr rest
          · simp only [rawPassAux, hf, if_neg hmem, he, if_neg hm] at h
            exact ih (pos + 1) (pos :: found) acc r h

theorem rawPassAux_good (bytes sig : List Nat) (fmt : String)
    (dims : List Nat → Option Nat × Option Nat) :
    ∀ fuel offset found acc, wellIndexed acc → sizesOk acc →
      wellIndexed (rawPassAux bytes sig fmt dims offset found acc fuel).2 ∧
      sizesOk (rawPassAux bytes sig fmt dims offset found acc fuel).2 := by
  intro fuel
  induction fuel with
  | zero => intro offset found acc h1 h2; simpa [rawPassAux] using ⟨h1, h2⟩
  | succ n ih =>
    intro offset found acc h1 h2
    cases hf : findFrom bytes sig offset with
    | none => simpa [rawPassAux, hf] using ⟨h1, h2⟩
    | some pos =>
      by_cases hmem : pos ∈ found
      · simp only [rawPassAux, hf, if_pos hmem]
        exact ih (pos + 1) found acc h1 h2
      · cases he : extract_image_by_format bytes pos fmt with
        | none =>
          simp only [rawPassAux, hf, if_neg hmem, he]
          exact ih (pos + 1) (pos :: found) acc h1 h2
        | some img =>
          by_cases hm : 200 < img.length
          · simp only [rawPassAux, hf, if_neg hmem, he, if_pos hm]
            exact ih (pos + 1) (pos :: found) _
              (wellIndexed_append acc _ h1 rfl) (sizesOk_append acc _ h2 rfl)
          · simp only [rawPassAux, hf, if_neg hmem, he, if_neg hm]
            exact ih (pos + 1) (pos :: found) acc h1 h2

theorem forall2_append_single {α β : Type} (R : α → β → Prop)
    (ps : List α) (acc : List β) (p : α) (e : β)
    (h : List.Forall₂ R ps acc) (hpe : R p e) :
    List.Forall₂ R (ps ++ [p]) (acc ++ [e]) := by
  induction h with
  | nil => simpa using List.Forall₂.cons hpe List.Forall₂.nil
  | cons h1 _ ih => exact List.Forall₂.cons h1 ih

theorem nodup_append_single {α : Type} (ps : List α) (p : α)
    (h1 : ps.Nodup) (h2 : p ∉ ps) : (ps ++ [p]).Nodup := by
  induction ps with
  | nil => simp
  | cons a t ih =>
    rcases List.nodup_cons.mp h1 with ⟨ha, ht⟩
    refine List.nodup_cons.mpr ⟨?_, ih ht (fun hc => h2 (List.mem_cons_of_mem a hc))⟩
    intro hc
    rcases List.mem_append.mp hc with hc' | hc'
    · exact ha hc'
    · rw [List.mem_singleton.mp hc'] at h2
      exact h2 (List.mem_cons_self _ _)

/-- Each record emitted by a raw scan pass arises from a start offset that
was fresh (not in `found_positions`) when it was processed, got added to
`found_positions` there, and the offsets collected this way are pairwise
distinct; `qs` lists them in emission order. -/
theorem rawPassAux_origins (bytes sig : List Nat) (fmt : String)
    (dims : List Nat → Option Nat × Option Nat) :
    ∀ fuel offset found acc ps, ps.Nodup → (∀ p, p ∈ ps → p ∈ found) →
      List.Forall₂ (fun p r => extract_image_by_format bytes p r.fmt = some r.payload ∧
        200 < r.payload.length) ps acc →
      ∃ qs, qs.Nodup ∧
        (∀ p, p ∈ qs → p ∈ (rawPassAux bytes sig fmt dims offset found acc fuel).1) ∧
        List.Forall₂ (fun p r => extract_image_by_format bytes p r.fmt = some r.payload ∧
          200 < r.payload.length) qs (rawPassAux bytes sig fmt dims offset found acc fuel).2 := by
  intro fuel
  induction fuel with
  | zero =>
    intro offset found acc ps h1 h2 h3
    exact ⟨ps, h1, by simpa [rawPassAux] using h2, by simpa [rawPassAux] using h3⟩
  | succ n ih =>
    intro offset found acc ps h1 h2 h3
    cases hf : findFrom bytes sig offset with
    | none =>
      exact ⟨ps, h1, by simpa [rawPassAux, hf] using h2, by simpa [rawPassAux, hf] using h3⟩
    | some pos =>
      by_cases hmem : pos ∈ found
      · simp only [rawPassAux, hf, if_pos hmem]
        exact ih (pos + 1) found acc ps h1 h2 h3
      · cases he : extract_image_by_format bytes pos fmt with
        | none =>
          simp only [rawPassAux, hf, if_neg hmem, he]
          exact ih (pos + 1) (pos :: found) acc ps h1
            (fun p hp => List.mem_cons_of_mem pos (h2 p hp)) h3
        | some img =>
          by_cases hm : 200 < img.length
          · simp only [rawPassAux, hf, if_neg hmem, he, if_pos hm]
            refine ih (pos + 1) (pos :: found) _ (ps ++ [pos]) ?_ ?_ ?_
            · exact nodup_append_single ps pos h1 (fun hc => hmem (h2 pos hc))
            · intro p hp
              rcases List.mem_append.mp hp with hp' | hp'
              · exact List.mem_cons_of_mem pos (h2 p hp')
              · rw [List.mem_singleton.mp hp']
                exact List.mem_cons_self pos found
            · exact forall2_append_single _ ps acc pos
                (create_image_entry dims img fmt acc.length) h3 ⟨he, hm⟩
          · simp only [rawPassAux, hf, if_neg hmem, he, if_neg hm]
            exact ih (pos + 1) (pos :: found) acc ps h1
              (fun p hp => List.mem_cons_of_mem pos (h2 p hp)) h3

theorem rawScanLoop_origins (bytes : List Nat)
    (dims : List Nat → Option Nat × Option Nat) :
    ∀ sigs found acc ps, ps.Nodup → (∀ p, p ∈ ps → p ∈ found) →
      List.Forall₂ (fun p r => extract_image_by_format bytes p r.fmt = some r.payload ∧
        200 < r.payload.length) ps acc →
      ∃ qs, qs.Nodup ∧
        (∀ p, p ∈ qs → p ∈ (rawScanLoop bytes dims sigs found acc).1) ∧
        List.Forall₂ (fun p r => extract_image_by_format bytes p r.fmt = some r.payload ∧
          200 < r.payload.length) qs (rawScanLoop bytes dims sigs found acc).2 := by
  intro sigs
  induction sigs with
  | nil => intro found acc ps h1 h2 h3; exact ⟨ps, h1, h2, h3⟩
  | cons hd rest ih =>
    intro found acc ps h1 h2 h3
    obtain ⟨qs, hq1, hq2, hq3⟩ :=
      rawPassAux_origins bytes hd.1 hd.2 dims (bytes.length + 1) 0 found acc ps h1 h2 h3
    simpa [rawScanLoop] using ih _ _ qs hq1 hq2 hq3

theorem rawScanLoop_good (bytes : List Nat)
    (dims : List Nat → Option Nat × Option Nat) :
    ∀ sigs found acc, wellIndexed acc → sizesOk acc →
      wellIndexed (rawScanLoop bytes dims sigs found acc).2 ∧
      sizesOk (rawScanLoop bytes dims sigs found acc).2 := by
  intro sigs
  induction sigs with
  | nil => intro found acc h1 h2; exact ⟨h1, h2⟩
  | cons hd rest ih =>
    intro found acc h1 h2
    obtain ⟨g1, g2⟩ := rawPassAux_good bytes hd.1 hd.2 dims (bytes.length + 1) 0 found acc h1 h2
    simpa [rawScanLoop] using ih _ _ g1 g2

theorem rawScanLoop_floor (bytes : List Nat)
    (dims : List Nat → Option Nat × Option Nat) :
    ∀ sigs found acc, (∀ r, r ∈ acc → 200 < r.size_bytes) →
      ∀ r, r ∈ (rawScanLoop bytes dims sigs found acc).2 → 200 < r.size_bytes := by
  intro sigs
  induction sigs with
  | nil => intro found acc h r hr; exact h r hr
  | cons hd rest ih =>
    intro found acc h r hr
    simp only [rawScanLoop] at hr
    refine ih _ _ ?_ r hr
    intro r' hr'
    rcases rawPassAux_sound bytes hd.1 hd.2 dims (bytes.length + 1) 0 found acc r' hr' with
      h' | ⟨pos, img, -, -, hm, -, -, hsz⟩
    · exact h r' h'
    · omega

/-! ### Structure of the xlsx (structured) path -/

theorem xlsxImagesLoop_good (dims : List Nat → Option Nat × Option Nat)
    (sheetName : String) :
    ∀ imgs acc, wellIndexed acc → sizesOk acc →
      wellIndexed (xlsxImagesLoop dims sheetName imgs acc) ∧
      sizesOk (xlsxImagesLoop dims sheetName imgs acc) := by
  intro imgs
  induction imgs with
  | nil => intro acc h1 h2; exact ⟨h1, h2⟩
  | cons im rest ih =>
    intro acc h1 h2
    cases hd : im.data with
    | none => simp only [xlsxImagesLoop, hd]; exact ih acc h1 h2
    | some d =>
      by_cases hde : d = []
      · simp only [xlsxImagesLoop, hd, if_pos hde]; exact ih acc h1 h2
      · simp only [xlsxImagesLoop, hd, if_neg hde]
        exact ih _ (wellIndexed_append acc _ h1 rfl) (sizesOk_append acc _ h2 rfl)

theorem xlsxSheetsLoop_good (dims : List Nat → Option Nat × Option Nat) :
    ∀ sheets acc, wellIndexed acc → sizesOk acc →
      wellIndexed (xlsxSheetsLoop dims sheets acc) ∧
      sizesOk (xlsxSheetsLoop dims sheets acc) := by
  intro sheets
  induction sheets with
  | nil => intro acc h1 h2; exact ⟨h1, h2⟩
  | cons sh rest ih =>
    intro acc h1 h2
    obtain ⟨g1, g2⟩ := xlsxImagesLoop_good dims sh.1 sh.2 acc h1 h2
    simpa [xlsxSheetsLoop] using ih _ g1 g2

theorem xlsxSheetsLoop_empty (dims : List Nat → Option Nat × Option Nat) :
    ∀ sheets acc, (∀ sh, sh ∈ sheets → sh.2 = ([] : List SheetImage)) →
      xlsxSheetsLoop dims sheets acc = acc := by
  intro sheets
  induction sheets with
  | nil => intro acc _; rfl
  | cons sh rest ih =>
    intro acc h
    have hsh : sh.2 = ([] : List SheetImage) := h sh (List.mem_cons_self _ _)
    rw [xlsxSheetsLoop, hsh]
    exact ih acc (fun s hs => h s (List.mem_cons_of_mem sh hs))

/-! ### Structure of the full OLE scan -/

theorem extract_images_from_ole_eq (dims : List Nat → Option Nat × Option Nat)
    (bytes : List Nat) :
    extract_images_from_ole dims bytes =
      scanPassAux bytes gifSig89 (gifCandidateOle bytes) 100 "gif" dims 0
        (scanPassAux bytes gifSig87 (gifCandidateOle bytes) 100 "gif" dims 0
          (scanPassAux bytes jpegSigOle (jpegCandidate bytes) 100 "jpeg" dims 0
            (scanPassAux bytes pngSig (pngCandidate bytes) 100 "png" dims 0 []
              (bytes.length + 1))
            (bytes.length + 1))
          (bytes.length + 1))
        (bytes.length + 1) := rfl

/-- Every record of the OLE scan comes from a signature match of one of
the four passes, with the corresponding termination rule and the `> 100`
size test. -/
theorem ole_sound (dims : List Nat → Option Nat × Option Nat) (bytes : List Nat)
    (r : ImageRecord) (h : r ∈ extract_images_from_ole dims bytes) :
    (∃ pos img, occursAt bytes pngSig pos = true ∧ pngCandidate bytes pos = some img ∧
      100 < img.length ∧ r.payload = img ∧ r.fmt = "png" ∧ r.size_bytes = img.length) ∨
    (∃ pos img, occursAt bytes jpegSigOle pos = true ∧ jpegCandidate bytes pos = some img ∧
      100 < img.length ∧ r.payload = img ∧ r.fmt = "jpeg" ∧ r.size_bytes = img.length) ∨
    (∃ pos img, occursAt bytes gifSig87 pos = true ∧ gifCandidateOle bytes pos = some img ∧
      100 < img.length ∧ r.payload = img ∧ r.fmt = "gif" ∧ r.size_bytes = img.length) ∨
    (∃ pos img, occursAt bytes gifSig89 pos = true ∧ gifCandidateOle bytes pos = some img ∧
      100 < img.length ∧ r.payload = img ∧ r.fmt = "gif" ∧ r.size_bytes = img.length) := by
  rw [extract_images_from_ole_eq] at h
  rcases scanPassAux_sound bytes gifSig89 (gifCandidateOle bytes) 100 "gif" dims _ _ _ r h with
    h | ⟨pos, img, -, hocc, he, hm, hp, hfm, hsz⟩
  · rcases scanPassAux_sound bytes gifSig87 (gifCandidateOle bytes) 100 "gif" dims _ _ _ r h with
      h | ⟨pos, img, -, hocc, he, hm, hp, hfm, hsz⟩
    · rcases scanPassAux_sound bytes jpegSigOle (jpegCandidate bytes) 100 "jpeg" dims _ _ _ r h with
        h | ⟨pos, img, -, hocc, he, hm, hp, hfm, hsz⟩
      · rcases scanPassAux_sound bytes pngSig (pngCandidate bytes) 100 "png" dims _ _ _ r h with
          h | ⟨pos, img, -, hocc, he, hm, hp, hfm, hsz⟩
        · simp at h
        · exact Or.inl ⟨pos, img, hocc, he, hm, hp, hfm, hsz⟩
      · exact Or.inr (Or.inl ⟨pos, img, hocc, he, hm, hp, hfm, hsz⟩)
    · exact Or.inr (Or.inr (Or.inl ⟨pos, img, hocc, he, hm, hp, hfm, hsz⟩))
  · exact Or.inr (Or.inr (Or.inr ⟨pos, img, hocc, he, hm, hp, hfm, hsz⟩))

/-- Every record of the OLE scan is strictly longer than 100 bytes. -/
theorem ole_floor (dims : List Nat → Option Nat × Option Nat) (bytes : List Nat)
    (r : ImageRecord) (h : r ∈ extract_images_from_ole dims bytes) :
    100 < r.size_bytes ∧ r.size_bytes = r.payload.length := by
  rcases ole_sound dims bytes r h with
    ⟨pos, img, -, -, hm, hp, -, hsz⟩ | ⟨pos, img, -, -, hm, hp, -, hsz⟩ |
    ⟨pos, img, -, -, hm, hp, -, hsz⟩ | ⟨pos, img, -, -, hm, hp, -, hsz⟩ <;>
    exact ⟨by omega, by rw [hsz, hp]⟩

theorem ole_good (dims : List Nat → Option Nat × Option Nat) (bytes : List Nat) :
    wellIndexed (extract_images_from_ole dims bytes) ∧
    sizesOk (extract_images_from_ole dims bytes) := by
  rw [extract_images_from_ole_eq]
  have h0 : wellIndexed ([] : List ImageRecord) ∧ sizesOk ([] : List ImageRecord) :=
    ⟨rfl, fun r hr => absurd hr (List.not_mem_nil r)⟩
  obtain ⟨h1, h2⟩ := h0
  obtain ⟨g1, g2⟩ := scanPassAux_good bytes pngSig (pngCandidate bytes) 100 "png" dims _ 0 _ h1 h2
  obtain ⟨g3, g4⟩ := scanPassAux_good bytes jpegSigOle (jpegCandidate bytes) 100 "jpeg" dims _ 0 _ g1 g2
  obtain ⟨g5, g6⟩ := scanPassAux_good bytes gifSig87 (gifCandidateOle bytes) 100 "gif" dims _ 0 _ g3 g4
  exact scanPassAux_good bytes gifSig89 (gifCandidateOle bytes) 100 "gif" dims _ 0 _ g5 g6

/-! ### Fault-injected variants of the two scanning functions

Both scanning functions wrap their whole loop body in `try ... except
Exception` (app.py lines 152-221 and 235-271): a fault raised anywhere in
the loops is caught, logged, and the records accumulated so far are
returned.  The variants below model an injected fault: `budget` counts the
loop iterations executed before the fault fires, the third component
`none` means the fault fired (the `except` branch ran), and `some b` means
the scan finished with `b` iterations of budget left.  A fault aborts
every later pass of that function, exactly as an exception unwinds to the
function-level handler. -/

def scanPassAuxF (bytes sig : List Nat) (ex : Nat → Option (List Nat))
    (ms : Nat) (fmt : String) (dims : List Nat → Option Nat × Option Nat) :
    Nat → List ImageRecord → Nat → Nat → List ImageRecord × Option Nat
  | _, acc, 0, budget => (acc, some budget)
  | offset, acc, fuel + 1, budget =>
    match budget with
    | 0 => (acc, none)
    | b + 1 =>
      match findFrom bytes sig offset with
      | none => (acc, some (b + 1))
      | some pos =>
        match ex pos with
        | some img =>
          if ms < img.length then
            scanPassAuxF bytes sig ex ms fmt dims (pos + 1)
              (acc ++ [create_image_entry dims img fmt acc.length]) fuel b
          else scanPassAuxF bytes sig ex ms fmt dims (pos + 1) acc fuel b
        | none => scanPassAuxF bytes sig ex ms fmt dims (pos + 1) acc fuel b

/-- `extract_images_from_ole` with a fault injected after `budget` loop
iterations: a fault in one pass skips the remaining passes and the
function returns the records accepted so far (the `except` branch of
app.py lines 220-221). -/
def extract_images_from_oleF (dims : List Nat → Option Nat × Option Nat)
    (bytes : List Nat) (budget : Nat) : List ImageRecord :=
  let fuel := bytes.length + 1
  match scanPassAuxF bytes pngSig (pngCandidate bytes) 100 "png" dims 0 [] fuel budget with
  | (acc, none) => acc
  | (acc, some b1) =>
    match scanPassAuxF bytes jpegSigOle (jpegCandidate bytes) 100 "jpeg" dims 0 acc fuel b1 with
    | (acc2, none) => acc2
    | (acc2, some b2) =>
      match scanPassAuxF bytes gifSig87 (gifCandidateOle bytes) 100 "gif" dims 0 acc2 fuel b2 with
      | (acc3, none) => acc3
      | (acc3, some b3) =>
        (scanPassAuxF bytes gifSig89 (gifCandidateOle bytes) 100 "gif" dims 0 acc3 fuel b3).1

def rawPassAuxF (bytes sig : List Nat) (fmt : String)
    (dims : List Nat → Option Nat × Option Nat) :
    Nat → List Nat → List ImageRecord → Nat → Nat →
    List Nat × List ImageRecord × Option Nat
  | _, found, acc, 0, budget => (found, acc, some budget)
  | offset, found, acc, fuel + 1, budget =>
    match budget with
    | 0 => (found, acc, none)
    | b + 1 =>
      match findFrom bytes sig offset with
      | none => (found, acc, some (b + 1))
      | some pos =>
        if pos ∈ found then rawPassAuxF bytes sig fmt dims (pos + 1) found acc fuel b
        else
          match extract_image_by_format bytes pos fmt with
          | some img =>
            if 200 < img.length then
              rawPassAuxF bytes sig fmt dims (pos + 1) (pos :: found)
                (acc ++ [create_image_entry dims img fmt acc.length]) fuel b
            else rawPassAuxF bytes sig fmt dims (pos + 1) (pos :: found) acc fuel b
          | none => rawPassAuxF bytes sig fmt dims (pos + 1) (pos :: found) acc fuel b

def rawScanLoopF (bytes : List Nat) (dims : List Nat → Option Nat × Option Nat) :
    List (List Nat × String) → List Nat → List ImageRecord → Nat →
    List ImageRecord × Option Nat
  | [], _, acc, b => (acc, some b)
  | (sig, f) :: rest, found, acc, b =>
    match rawPassAuxF bytes sig f dims 0 found acc (bytes.length + 1) b with
    | (found2, acc2, some b2) => rawScanLoopF bytes dims rest found2 acc2 b2
    | (_, acc2, none) => (acc2, none)

/-- `extract_images_from_xls_raw` with a fault injected after `budget`
loop iterations (the `except` branch of app.py lines 270-271). -/
def extract_images_from_xls_rawF (dims : List Nat → Option Nat × Option Nat)
    (bytes : List Nat) (budget : Nat) : List ImageRecord :=
  (rawScanLoopF bytes dims rawSignatureList [] [] budget).1

theorem scanPassAuxF_ok (bytes sig : List Nat) (ex : Nat → Option (List Nat))
    (ms : Nat) (fmt : String) (dims : List Nat → Option Nat × Option Nat) :
    ∀ fuel budget offset acc,
      (∀ acc2 b2, scanPassAuxF bytes sig ex ms fmt dims offset acc fuel budget = (acc2, some b2) →
        scanPassAux bytes sig ex ms fmt dims offset acc fuel = acc2) ∧
      (∀ acc2, scanPassAuxF bytes sig ex ms fmt dims offset acc fuel budget = (acc2, none) →
        ∃ t, scanPassAux bytes sig ex ms fmt dims offset acc fuel = acc2 ++ t) := by
  intro fuel
  induction fuel with
  | zero =>
    intro budget offset acc
    constructor
    · intro acc2 b2 h
      simp only [scanPassAuxF] at h
      simp only [scanPassAux]
      exact (Prod.mk.injEq _ _ _ _ ▸ h).1.symm ▸ rfl
    · intro acc2 h
      simp only [scanPassAuxF] at h
      exact absurd (Prod.mk.injEq _ _ _ _ ▸ h).2 (by simp)
  | succ n ih =>
    intro budget offset acc
    cases budget with
    | zero =>
      constructor
      · intro acc2 b2 h
        simp only [scanPassAuxF] at h
        exact absurd (Prod.mk.injEq _ _ _ _ ▸ h).2 (by simp)
      · intro acc2 h
        simp only [scanPassAuxF] at h
        have hacc : acc = acc2 := (Prod.mk.injEq _ _ _ _ ▸ h).1
        subst hacc
        exact scanPassAux_grows bytes sig ex ms fmt dims (n + 1) offset acc
    | succ b =>
      cases hf : findFrom bytes sig offset with
      | none =>
        constructor
        · intro acc2 b2 h
          simp only [scanPassAuxF, hf] at h
          simp only [scanPassAux, hf]
          exact (Prod.mk.injEq _ _ _ _ ▸ h).1
        · intro acc2 h
          simp only [scanPassAuxF, hf] at h
          exact absurd (Prod.mk.injEq _ _ _ _ ▸ h).2 (by simp)
      | some pos =>
        cases he : ex pos with
        | none =>
          constructor
          · intro acc2 b2 h
            simp only [scanPassAuxF, hf, he] at h
            simp only [scanPassAux, hf, he]
            exact (ih b (pos + 1) acc).1 acc2 b2 h
          · intro acc2 h
            simp only [scanPassAuxF, hf, he] at h
            simp only [scanPassAux, hf, he]
            exact (ih b (pos + 1) acc).2 acc2 h
        | some img =>
          by_cases hm : ms < img.length
          · constructor
            · intro acc2 b2 h
              simp only [scanPassAuxF, hf, he, if_pos hm] at h
              simp only [scanPassAux, hf, he, if_pos hm]
              exact (ih b (pos + 1) _).1 acc2 b2 h
            · intro acc2 h
              simp only [scanPassAuxF, hf, he, if_pos hm] at h
              simp only [scanPassAux, hf, he, if_pos hm]
              exact (ih b (pos + 1) _).2 acc2 h
          · constructor
            · intro acc2 b2 h
              simp only [scanPassAuxF, hf, he, if_neg hm] at h
              simp only [scanPassAux, hf, he, if_neg hm]
              exact (ih b (pos + 1) acc).1 acc2 b2 h
            · intro acc2 h
              simp only [scanPassAuxF, hf, he, if_neg hm] at h
              simp only [scanPassAux, hf, he, if_neg hm]
              exact (ih b (pos + 1) acc).2 acc2 h

theorem rawPassAuxF_ok (bytes sig : List Nat) (fmt : String)
    (dims : List Nat → Option Nat × Option Nat) :
    ∀ fuel budget offset found acc,
      (∀ found2 acc2 b2,
        rawPassAuxF bytes sig fmt dims offset found acc fuel budget = (found2, acc2, some b2) →
        rawPassAux bytes sig fmt dims offset found acc fuel = (found2, acc2)) ∧
      (∀ found2 acc2,
        rawPassAuxF bytes sig fmt dims offset found acc fuel budget = (found2, acc2, none) →
        ∃ t, (rawPassAux bytes sig fmt dims offset found acc fuel).2 = acc2 ++ t) := by
  intro fuel
  induction fuel with
  | zero =>
    intro budget offset found acc
    constructor
    · intro found2 acc2 b2 h
      simp only [rawPassAuxF, Prod.mk.injEq, Option.some.injEq] at h
      obtain ⟨h1, h2, -⟩ := h
      simp only [rawPassAux, h1, h2]
    · intro found2 acc2 h
      simp only [rawPassAuxF, Prod.mk.injEq] at h
      exact absurd h.2.2 (by simp)
  | succ n ih =>
    intro budget offset found acc
    cases budget with
    | zero =>
      constructor
      · intro found2 acc2 b2 h
        simp only [rawPassAuxF, Prod.mk.injEq] at h
        exact absurd h.2.2 (by simp)
      · intro found2 acc2 h
        simp only [rawPassAuxF, Prod.mk.injEq] at h
        obtain ⟨-, h2, -⟩ := h
        subst h2
        exact rawPassAux_grows bytes sig fmt dims (n + 1) offset found acc
    | succ b =>
      cases hf : findFrom bytes sig offset with
      | none =>
        constructor
        · intro found2 acc2 b2 h
          simp only [rawPassAuxF, hf, Prod.mk.injEq, Option.some.injEq] at h
          obtain ⟨h1, h2, -⟩ := h
          simp only [rawPassAux, hf, h1, h2]
        · intro found2 acc2 h
          simp only [rawPassAuxF, hf, Prod.mk.injEq] at h
          exact absurd h.2.2 (by simp)
      | some pos =>
        by_cases hmem : pos ∈ found
        · constructor
          · intro found2 acc2 b2 h
            simp only [rawPassAuxF, hf, if_pos hmem] at h
            simp only [rawPassAux, hf, if_pos hmem]
            exact (ih b (pos + 1) found acc).1 found2 acc2 b2 h
          · intro found2 acc2 h
            simp only [rawPassAuxF, hf, if_pos hmem] at h
            simp only [rawPassAux, hf, if_pos hmem]
            exact (ih b (pos + 1) found acc).2 found2 acc2 h
        · cases he : extract_image_by_format bytes pos fmt with
          | none =>
            constructor
            · intro found2 acc2 b2 h
              simp only [rawPassAuxF, hf, if_neg hmem, he] at h
              simp only [rawPassAux, hf, if_neg hmem, he]
              exact (ih b (pos + 1) (pos :: found) acc).1 found2 acc2 b2 h
            · intro found2 acc2 h
              simp only [rawPassAuxF, hf, if_neg hmem, he] at h
              simp only [rawPassAux, hf, if_neg hmem, he]
              exact (ih b (pos + 1) (pos :: found) acc).2 found2 acc2 h
          | some img =>
            by_cases hm : 200 < img.length
            · constructor
              · intro found2 acc2 b2 h
                simp only [rawPassAuxF, hf, if_neg hmem, he, if_pos hm] at h
                simp only [rawPassAux, hf, if_neg hmem, he, if_pos hm]
                exact (ih b (pos + 1) (pos :: found) _).1 found2 acc2 b2 h
              · intro found2 acc2 h
                simp only [rawPassAuxF, hf, if_neg hmem, he, if_pos hm] at h
                simp only [rawPassAux, hf, if_neg hmem, he, if_pos hm]
                exact (ih b (pos + 1) (pos :: found) _).2 found2 acc2 h
            · constructor
              · intro found2 acc2 b2 h
                simp only [rawPassAuxF, hf, if_neg hmem, he, if_neg hm] at h
                simp only [rawPassAux, hf, if_neg hmem, he, if_neg hm]
                exact (ih b (pos + 1) (pos :: found) acc).1 found2 acc2 b2 h
              · intro found2 acc2 h
                simp only [rawPassAuxF, hf, if_neg hmem, he, if_neg hm] at h
                simp only [rawPassAux, hf, if_neg hmem, he, if_neg hm]
                exact (ih b (pos + 1) (pos :: found) acc).2 found2 acc2 h

theorem rawScanLoop_grows (bytes : List Nat)
    (dims : List Nat → Option Nat × Option Nat) :
    ∀ sigs found acc, ∃ t, (rawScanLoop bytes dims sigs found acc).2 = acc ++ t := by
  intro sigs
  induction sigs with
  | nil => intro found acc; exact ⟨[], by simp [rawScanLoop]⟩
  | cons hd rest ih =>
    intro found acc
    obtain ⟨t1, ht1⟩ := rawPassAux_grows bytes hd.1 hd.2 dims (bytes.length + 1) 0 found acc
    obtain ⟨t2, ht2⟩ := ih (rawPassAux bytes hd.1 hd.2 dims 0 found acc (bytes.length + 1)).1
      (rawPassAux bytes hd.1 hd.2 dims 0 found acc (bytes.length + 1)).2
    refine ⟨t1 ++ t2, ?_⟩
    rw [rawScanLoop]
    cases hd with
    | mk sig f =>
      simp only at ht1 ht2 ⊢
      rw [ht2, ht1, List.append_assoc]

theorem rawScanLoopF_ok (bytes : List Nat)
    (dims : List Nat → Option Nat × Option Nat) :
    ∀ sigs found acc budget,
      (∀ acc2 b2, rawScanLoopF bytes dims sigs found acc budget = (acc2, some b2) →
        (rawScanLoop bytes dims sigs found acc).2 = acc2) ∧
      (∀ acc2, rawScanLoopF bytes dims sigs found acc budget = (acc2, none) →
        ∃ t, (rawScanLoop bytes dims sigs found acc).2 = acc2 ++ t) := by
  intro sigs
  induction sigs with
  | nil =>
    intro found acc budget
    constructor
    · intro acc2 b2 h
      simp only [rawScanLoopF, Prod.mk.injEq, Option.some.injEq] at h
      simp only [rawScanLoop, h.1]
    · intro acc2 h
      simp only [rawScanLoopF, Prod.mk.injEq] at h
      exact absurd h.2 (by simp)
  | cons hd rest ih =>
    intro found acc budget
    cases hd with
    | mk sig f =>
      rcases hp : rawPassAuxF bytes sig f dims 0 found acc (bytes.length + 1) budget with
        ⟨found2, acc2, ob⟩
      cases ob with
      | some b2 =>
        have hpass := (rawPassAuxF_ok bytes sig f dims (bytes.length + 1) budget 0 found acc).1
          found2 acc2 b2 hp
        constructor
        · intro acc3 b3 h
          simp only [rawScanLoopF, hp] at h
          have := (ih found2 acc2 b2).1 acc3 b3 h
          simp only [rawScanLoop, hpass]
          exact this
        · intro acc3 h
          simp only [rawScanLoopF, hp] at h
          have := (ih found2 acc2 b2).2 acc3 h
          simp only [rawScanLoop, hpass]
          exact this
      | none =>
        have hpass := (rawPassAuxF_ok bytes sig f dims (bytes.length + 1) budget 0 found acc).2
          found2 acc2 hp
        obtain ⟨t1, ht1⟩ := hpass
        constructor
        · intro acc3 b3 h
          simp only [rawScanLoopF, hp, Prod.mk.injEq] at h
          exact absurd h.2 (by simp)
        · intro acc3 h
          simp only [rawScanLoopF, hp, Prod.mk.injEq] at h
          obtain ⟨h1, -⟩ := h
          subst h1
          obtain ⟨t2, ht2⟩ := rawScanLoop_grows bytes dims rest
            (rawPassAux bytes sig f dims 0 found acc (bytes.length + 1)).1
            (rawPassAux bytes sig f dims 0 found acc (bytes.length + 1)).2
          refine ⟨t1 ++ t2, ?_⟩
          simp only [rawScanLoop]
          rw [ht2, ht1, List.append_assoc]

/-! ### Concrete inputs for closed statements -/

/-- A JPEG-pass input: `\xff\xd8\xff` matches at offsets 0 and 2, both
terminated by the single `\xff\xd9` marker at offset 103. -/
def c1Bytes : List Nat := [255, 216, 255, 216, 255] ++ List.replicate 98 0 ++ [255, 217]

/-- A 109-byte well-formed fake PNG: signature, 89 filler bytes, `IEND`
at offset 97, 8 trailing bytes. -/
def fakePng : List Nat :=
  pngSig ++ List.replicate 89 0 ++ iendMarker ++ List.replicate 8 0

/-- A 101-byte input whose accepted PNG candidate contains a second PNG
signature at offset 8 (`IEND` at offset 89). -/
def c5Bytes : List Nat :=
  pngSig ++ pngSig ++ List.replicate 73 0 ++ iendMarker ++ List.replicate 8 0

/-- A 107-byte input ending right after `IEND` (offset 103): the `+ 12`
end bound is clamped by the end of the input. -/
def c5TruncBytes : List Nat := pngSig ++ List.replicate 95 0 ++ iendMarker

/-- A 50-byte structured image part. -/
def part50 : List Nat := List.replicate 50 7

/-- A filename hint resolving neither format. -/
def binName : List Char := ['d', 'a', 't', 'a', '.', 'b', 'i', 'n']

/-- A filename hint with the legacy extension. -/
def xlsName : List Char := ['a', '.', 'x', 'l', 's']

/-- An input with the archive (ZIP) magic. -/
def zipEmpty : List Nat := zipMagic ++ List.replicate 4 0

/-- The record the OLE scan produces for `fakePng`. -/
def fakePngRec : ImageRecord :=
  { index := 0, sheet := "unknown", cell := none, fmt := "png",
    mime := "image/png", width := none, height := none,
    size_bytes := 109, payload := fakePng }

/-! ### Claim C1 -/

/-- Claim C1 counterexample: in `extract_images_from_ole` (which
`extract_images_from_xls` runs first) the two JPEG start-signature matches
of `c1Bytes`, at offsets 0 and 2, have overlapping byte ranges `[0, 105)`
and `[2, 105)`, yet both produce a record: no set of accepted start
offsets exists in this function, so overlap is not suppressed. -/
theorem c1_overlap_cx :
    (extract_images_from_ole dimsNone c1Bytes).map ImageRecord.payload =
      [pySlice c1Bytes 0 105, pySlice c1Bytes 2 105] ∧
    occursAt c1Bytes jpegSigOle 0 = true ∧
    occursAt c1Bytes jpegSigOle 2 = true ∧
    extract_images_from_xls dimsNone c1Bytes = extract_images_from_ole dimsNone c1Bytes := by
  decide

/-- Claim C1 amended: only `extract_images_from_xls_raw` deduplicates, and
only by exact start offset: it keeps one set of seen start offsets across
all format passes and a later match at an offset exactly equal to a seen
one is skipped, so every emitted record arises from its own distinct start
offset (`qs` below, in emission order); matches at distinct offsets with
overlapping ranges still each produce a record, and
`extract_images_from_ole` deduplicates nothing. -/
theorem c1_distinct_offsets (dims : List Nat → Option Nat × Option Nat)
    (bytes : List Nat) :
    ∃ qs : List Nat, qs.Nodup ∧
      List.Forall₂ (fun p r => extract_image_by_format bytes p r.fmt = some r.payload ∧
        200 < r.payload.length) qs (extract_images_from_xls_raw dims bytes) := by
  obtain ⟨qs, h1, -, h3⟩ := rawScanLoop_origins bytes dims rawSignatureList [] [] []
    List.nodup_nil (fun p hp => absurd hp (List.not_mem_nil p)) List.Forall₂.nil
  exact ⟨qs, h1, h3⟩

/-! ### Claim C2 -/

/-- Claim C2 counterexample: `fakePng` matches neither container magic and
`data.bin` resolves neither format, yet the request is routed to the
structured (xlsx) path — which returns no records here — while the
Signature Scanner path (`extract_images_from_xls`) would have found one
image in the same bytes.  Unknown containers are not handed to the
Signature Scanner. -/
theorem c2_unknown_routes_cx :
    detect_excel_format fakePng = none ∧
    resolve_excel_format fakePng binName = "xlsx" ∧
    extract_images_from_excel dimsNone fakePng binName [] = [] ∧
    (extract_images_from_xls dimsNone fakePng).length = 1 := by
  decide

/-- Claim C2 amended: an input whose leading bytes match neither magic and
whose filename hint resolves neither format defaults to the structured
(xlsx) path, not to the Signature Scanner; only a filename hint ending in
`.xls` routes such an input to the scanner. -/
theorem c2_unknown_routes_xlsx (dims : List Nat → Option Nat × Option Nat)
    (bytes : List Nat) (filename : List Char)
    (sheets : List (String × List SheetImage))
    (h1 : detect_excel_format bytes = none)
    (h2 : ['.', 'x', 'l', 's', 'x'].isSuffixOf (filename.map lowerChar) = false)
    (h3 : ['.', 'x', 'l', 's'].isSuffixOf (filename.map lowerChar) = false) :
    extract_images_from_excel dims bytes filename sheets =
      extract_images_from_xlsx dims sheets := by
  unfold extract_images_from_excel resolve_excel_format
  rw [h1]
  simp [h2, h3]

theorem c2_unknown_routes_xlsx_wit :
    extract_images_from_excel dimsNone fakePng binName [] =
      extract_images_from_xlsx dimsNone [] :=
  c2_unknown_routes_xlsx dimsNone fakePng binName []
    (by decide) (by decide) (by decide)

/-! ### Claim C4 -/

/-- Claim C4: on the scanned path, a PNG start-signature match at `pos`
whose first subsequent `IEND` is at `j` yields the candidate
`bytes[pos : j + 12]`; it is accepted exactly when longer than the 100-byte
floor (candidates at or below the floor never appear), and conversely
every `png` record of the OLE scan is such a slice for some match. -/
theorem c4_png_boundaries (dims : List Nat → Option Nat × Option Nat)
    (bytes : List Nat) (pos j : Nat)
    (h1 : occursAt bytes pngSig pos = true)
    (h2 : findFrom bytes iendMarker pos = some j) :
    (100 < (pySlice bytes pos (j + 12)).length →
      ∃ r, r ∈ extract_images_from_ole dims bytes ∧ r.fmt = "png" ∧
        r.payload = pySlice bytes pos (j + 12)) ∧
    ((pySlice bytes pos (j + 12)).length ≤ 100 →
      ∀ r, r ∈ extract_images_from_ole dims bytes →
        r.payload ≠ pySlice bytes pos (j + 12)) ∧
    (∀ r, r ∈ extract_images_from_ole dims bytes → r.fmt = "png" →
      ∃ p q, occursAt bytes pngSig p = true ∧ findFrom bytes iendMarker p = some q ∧
        r.payload = pySlice bytes p (q + 12) ∧ 100 < r.payload.length) := by
  refine ⟨?_, ?_, ?_⟩
  · intro hlen
    have hbound := occursAt_bound bytes pngSig pos (by decide) h1
    have hex : pngCandidate bytes pos = some (pySlice bytes pos (j + 12)) := by
      simp [pngCandidate, h2]
    obtain ⟨r, hr, hp, hf⟩ := scanPassAux_complete bytes pngSig (pngCandidate bytes)
      100 "png" dims (by decide) (bytes.length + 1) 0 [] pos
      (pySlice bytes pos (j + 12)) h1 (Nat.zero_le pos)
      (by simp [pngSig] at hbound; omega) hex hlen
    refine ⟨r, ?_, hf, hp⟩
    rw [extract_images_from_ole_eq]
    obtain ⟨t2, ht2⟩ := scanPassAux_grows bytes jpegSigOle (jpegCandidate bytes)
      100 "jpeg" dims (bytes.length + 1) 0
      (scanPassAux bytes pngSig (pngCandidate bytes) 100 "png" dims 0 [] (bytes.length + 1))
    obtain ⟨t3, ht3⟩ := scanPassAux_grows bytes gifSig87 (gifCandidateOle bytes)
      100 "gif" dims (bytes.length + 1) 0
      (scanPassAux bytes jpegSigOle (jpegCandidate bytes) 100 "jpeg" dims 0
        (scanPassAux bytes pngSig (pngCandidate bytes) 100 "png" dims 0 [] (bytes.length + 1))
        (bytes.length + 1))
    obtain ⟨t4, ht4⟩ := scanPassAux_grows bytes gifSig89 (gifCandidateOle bytes)
      100 "gif" dims (bytes.length + 1) 0
      (scanPassAux bytes gifSig87 (gifCandidateOle bytes) 100 "gif" dims 0
        (scanPassAux bytes jpegSigOle (jpegCandidate bytes) 100 "jpeg" dims 0
          (scanPassAux bytes pngSig (pngCandidate bytes) 100 "png" dims 0 [] (bytes.length + 1))
          (bytes.length + 1))
        (bytes.length + 1))
    rw [ht4, ht3, ht2]
    simp only [List.append_assoc, List.mem_append]
    exact Or.inl hr
  · intro hle r hr heq
    obtain ⟨hfl, hsz⟩ := ole_floor dims bytes r hr
    rw [hsz, heq] at hfl
    omega
  · intro r hr hfm
    rcases ole_sound dims bytes r hr with
      ⟨p, img, hocc, he, hm, hp, -, -⟩ | ⟨p, img, -, -, -, -, hf, -⟩ |
      ⟨p, img, -, -, -, -, hf, -⟩ | ⟨p, img, -, -, -, -, hf, -⟩
    · cases hq : findFrom bytes iendMarker p with
      | none => rw [pngCandidate, hq] at he; exact absurd he (by simp)
      | some q =>
        rw [pngCandidate, hq] at he
        have himg : img = pySlice bytes p (q + 12) := by
          have := Option.some.injEq _ _ ▸ he
          simpa using this.symm
        subst himg
        exact ⟨p, q, hocc, hq, hp, by rw [hp]; exact hm⟩
    · rw [hfm] at hf; exact absurd hf (by decide)
    · rw [hfm] at hf; exact absurd hf (by decide)
    · rw [hfm] at hf; exact absurd hf (by decide)

theorem c4_png_boundaries_wit :
    ∃ r, r ∈ extract_images_from_ole dimsNone fakePng ∧ r.fmt = "png" ∧
      r.payload = pySlice fakePng 0 (97 + 12) :=
  (c4_png_boundaries dimsNone fakePng 0 97 (by decide) (by decide)).1 (by decide)

/-! ### Claim C5 -/

/-- Claim C5 counterexample: the accepted PNG candidate of `c5Bytes` (the
whole 101-byte input) contains two PNG start signatures, not exactly one;
and for `c5TruncBytes` the accepted candidate's `IEND` sits 4 bytes before
the range's end (offset 103 of 107), not 12, because the `+ 12` end bound
was clamped by the end of the input. -/
theorem c5_rescan_cx :
    ((extract_images_from_ole dimsNone c5Bytes).map ImageRecord.payload = [c5Bytes] ∧
      countOcc c5Bytes pngSig = 2) ∧
    ((extract_images_from_ole dimsNone c5TruncBytes).map ImageRecord.payload =
        [c5TruncBytes] ∧
      findFrom c5TruncBytes iendMarker 0 = some 103 ∧
      c5TruncBytes.length = 107) := by
  decide

/-- Claim C5 amended: re-scanning a PNG candidate's own byte range finds a
PNG start signature at the range's start and — whenever the `IEND + 12`
end bound was not clamped by the end of the input — the first `IEND`
exactly 12 bytes before the range's end; neither the signature nor the
terminator need be unique within the range. -/
theorem c5_rescan_boundaries (bytes : List Nat) (pos j : Nat)
    (h1 : occursAt bytes pngSig pos = true)
    (h2 : findFrom bytes iendMarker pos = some j)
    (h3 : j + 12 ≤ bytes.length) :
    occursAt (pySlice bytes pos (j + 12)) pngSig 0 = true ∧
    findFrom (pySlice bytes pos (j + 12)) iendMarker 0 =
      some ((pySlice bytes pos (j + 12)).length - 12) := by
  obtain ⟨hpj, hoccj, hmin⟩ := findFrom_some bytes iendMarker pos j h2
  have hlen : (pySlice bytes pos (j + 12)).length = j + 12 - pos := by
    rw [pySlice_length]; omega
  have hsig8 : pngSig.length = 8 := by decide
  have hiend4 : iendMarker.length = 4 := by decide
  constructor
  · rw [occursAt_slice bytes pngSig pos (j + 12) 0 (by omega)]
    simpa using h1
  · have hocc_c : occursAt (pySlice bytes pos (j + 12)) iendMarker (j - pos) = true := by
      rw [occursAt_slice bytes iendMarker pos (j + 12) (j - pos) (by omega)]
      have hpp : pos + (j - pos) = j := by omega
      rw [hpp]
      exact hoccj
    obtain ⟨j', hj', hj'le⟩ := findFrom_le (pySlice bytes pos (j + 12)) iendMarker 0
      (j - pos) (by decide) hocc_c (Nat.zero_le _)
    obtain ⟨-, hoccj', -⟩ := findFrom_some _ _ _ _ hj'
    have hub : j' + iendMarker.length ≤ (pySlice bytes pos (j + 12)).length :=
      occursAt_bound _ iendMarker j' (by decide) hoccj'
    rw [hiend4, hlen] at hub
    have hback : occursAt bytes iendMarker (pos + j') = true := by
      rw [← occursAt_slice bytes iendMarker pos (j + 12) j' (by omega)]
      exact hoccj'
    have hge : j ≤ pos + j' := by
      by_contra hc
      push_neg at hc
      have hfalse := hmin (pos + j') (by omega) hc
      rw [hfalse] at hback
      exact Bool.false_ne_true hback
    rw [hj', hlen]
    congr 1
    omega

theorem c5_rescan_boundaries_wit :
    occursAt (pySlice fakePng 0 (97 + 12)) pngSig 0 = true ∧
    findFrom (pySlice fakePng 0 (97 + 12)) iendMarker 0 =
      some ((pySlice fakePng 0 (97 + 12)).length - 12) :=
  c5_rescan_boundaries fakePng 0 97 (by decide) (by decide) (by decide)

/-! ### Claim C6 -/

/-- Claim C6: on every path, the emitted records' `index` fields are
exactly `0, 1, ..., count - 1` and every record's `size_bytes` equals the
byte length of its payload before base64 encoding. -/
theorem c6_index_size (dims : List Nat → Option Nat × Option Nat)
    (bytes : List Nat) (filename : List Char)
    (sheets : List (String × List SheetImage)) :
    (extract_images_from_excel dims bytes filename sheets).map ImageRecord.index =
      List.range (extract_images_from_excel dims bytes filename sheets).length ∧
    ∀ r, r ∈ extract_images_from_excel dims bytes filename sheets →
      r.size_bytes = r.payload.length := by
  have h0 : wellIndexed ([] : List ImageRecord) ∧ sizesOk ([] : List ImageRecord) :=
    ⟨rfl, fun r hr => absurd hr (List.not_mem_nil r)⟩
  unfold extract_images_from_excel
  by_cases h : resolve_excel_format bytes filename = "xlsx"
  · rw [if_pos h]
    exact xlsxSheetsLoop_good dims sheets [] h0.1 h0.2
  · rw [if_neg h]
    unfold extract_images_from_xls
    by_cases he : extract_images_from_ole dims bytes = []
    · rw [if_pos he]
      unfold extract_images_from_xls_raw
      exact rawScanLoop_good bytes dims rawSignatureList [] [] h0.1 h0.2
    · rw [if_neg he]
      exact ole_good dims bytes

theorem c6_index_size_wit :
    (extract_images_from_excel dimsNone fakePng xlsName []).map ImageRecord.index =
      List.range (extract_images_from_excel dimsNone fakePng xlsName []).length ∧
    fakePngRec.size_bytes = fakePngRec.payload.length :=
  ⟨(c6_index_size dimsNone fakePng xlsName []).1,
   (c6_index_size dimsNone fakePng xlsName []).2 fakePngRec (by decide)⟩

/-! ### Claim C7 -/

/-- Claim C7 counterexample: the structured (xlsx) path applies no
minimum-size floor — a 50-byte image part, below both scanner floors
(100 and 200 bytes), is emitted as a record. -/
theorem c7_floor_cx :
    (extract_images_from_xlsx dimsNone
        [("Sheet1", [⟨some part50, none⟩])]).map ImageRecord.size_bytes = [50] ∧
    (50 : Nat) < 100 ∧ (50 : Nat) < 200 := by
  decide

/-- Claim C7 amended: the minimum-size floors belong to the two
signature-scanning functions only — every record of the OLE scan is
strictly longer than 100 bytes and every record of the raw XLS scan is
strictly longer than 200 bytes; the structured (xlsx) path emits records
of any non-zero size. -/
theorem c7_scan_floor (dims : List Nat → Option Nat × Option Nat)
    (bytes : List Nat) :
    (∀ r, r ∈ extract_images_from_ole dims bytes → 100 < r.size_bytes) ∧
    (∀ r, r ∈ extract_images_from_xls_raw dims bytes → 200 < r.size_bytes) := by
  constructor
  · intro r hr
    exact (ole_floor dims bytes r hr).1
  · intro r hr
    unfold extract_images_from_xls_raw at hr
    exact rawScanLoop_floor bytes dims rawSignatureList [] []
      (fun r' hr' => absurd hr' (List.not_mem_nil r')) r hr

theorem c7_scan_floor_wit : 100 < fakePngRec.size_bytes :=
  (c7_scan_floor dimsNone fakePng).1 fakePngRec (by decide)

/-! ### Claim C8 -/

/-- Claim C8 counterexample: `get_anchor_cell` performs no capping — for
source column index 26 it renders the character of code 91 (`[`, one past
`Z`), which is not a column letter, so the cell is not "a column letter
followed by the row number" and no bounded column range is enforced. -/
theorem c8_anchor_cx :
    get_anchor_cell (some (26, 0)) = some (String.mk [Char.ofNat 91, '1']) ∧
    Char.toNat 'Z' < (Char.ofNat 91).toNat := by
  decide

/-- Claim C8 amended: the cell is `chr(65 + col)` concatenated with the
1-based row number; this is an uppercase column letter (codes 65-90)
exactly for column indices up to 25, and larger indices are not capped. -/
theorem c8_anchor_letter (col row : Nat) (h : col ≤ 25) :
    get_anchor_cell (some (col, row)) =
      some (String.mk [Char.ofNat (65 + col)] ++ toString (row + 1)) ∧
    65 ≤ (Char.ofNat (65 + col)).toNat ∧ (Char.ofNat (65 + col)).toNat ≤ 90 := by
  refine ⟨rfl, ?_, ?_⟩ <;> (interval_cases col <;> decide)

theorem c8_anchor_letter_wit :
    get_anchor_cell (some (2, 4)) =
      some (String.mk [Char.ofNat (65 + 2)] ++ toString (4 + 1)) ∧
    65 ≤ (Char.ofNat (65 + 2)).toNat ∧ (Char.ofNat (65 + 2)).toNat ≤ 90 :=
  c8_anchor_letter 2 4 (by decide)

/-! ### Claim C9 -/

/-- Claim C9: an input with the archive magic is handled entirely by the
structured path — the result is the structured extraction's record list
whatever the raw bytes contain, and when the workbook yields no image
parts the result is the successful empty list (no fallback to
byte-signature scanning). -/
theorem c9_empty_archive (dims : List Nat → Option Nat × Option Nat)
    (bytes : List Nat) (filename : List Char)
    (sheets : List (String × List SheetImage))
    (h : detect_excel_format bytes = some "xlsx") :
    extract_images_from_excel dims bytes filename sheets =
      extract_images_from_xlsx dims sheets ∧
    ((∀ sh, sh ∈ sheets → sh.2 = ([] : List SheetImage)) →
      extract_images_from_excel dims bytes filename sheets = []) := by
  have hr : resolve_excel_format bytes filename = "xlsx" := by
    unfold resolve_excel_format
    rw [h]
  constructor
  · unfold extract_images_from_excel
    rw [if_pos hr]
  · intro hempty
    unfold extract_images_from_excel
    rw [if_pos hr]
    unfold extract_images_from_xlsx
    exact xlsxSheetsLoop_empty dims sheets [] hempty

theorem c9_empty_archive_wit :
    extract_images_from_excel dimsNone zipEmpty binName [("Sheet1", [])] =
      extract_images_from_xlsx dimsNone [("Sheet1", [])] ∧
    extract_images_from_excel dimsNone zipEmpty binName [("Sheet1", [])] = [] := by
  have h := c9_empty_archive dimsNone zipEmpty binName [("Sheet1", [])] (by decide)
  exact ⟨h.1, h.2 (by decide)⟩

/-! ### Claim C10 -/

/-- Claim C10: the two signature-scanning functions never propagate a
fault.  With a fault injected after any number of loop iterations
(`budget`), each function still returns a record list — the records
accepted before the fault — and that list is a prefix of the fault-free
scan's output. -/
theorem c10_fault_tolerance (dims : List Nat → Option Nat × Option Nat)
    (bytes : List Nat) (budget : Nat) :
    (∃ t, extract_images_from_ole dims bytes =
      extract_images_from_oleF dims bytes budget ++ t) ∧
    (∃ t, extract_images_from_xls_raw dims bytes =
      extract_images_from_xls_rawF dims bytes budget ++ t) := by
  constructor
  · rw [extract_images_from_ole_eq]
    rcases h1 : scanPassAuxF bytes pngSig (pngCandidate bytes) 100 "png" dims 0 []
        (bytes.length + 1) budget with ⟨a1, ob1⟩
    cases ob1 with
    | none =>
      obtain ⟨t1, ht1⟩ := (scanPassAuxF_ok bytes pngSig (pngCandidate bytes) 100 "png" dims
        (bytes.length + 1) budget 0 []).2 a1 h1
      obtain ⟨t2, ht2⟩ := scanPassAux_grows bytes jpegSigOle (jpegCandidate bytes)
        100 "jpeg" dims (bytes.length + 1) 0
        (scanPassAux bytes pngSig (pngCandidate bytes) 100 "png" dims 0 [] (bytes.length + 1))
      obtain ⟨t3, ht3⟩ := scanPassAux_grows bytes gifSig87 (gifCandidateOle bytes)
        100 "gif" dims (bytes.length + 1) 0
        (scanPassAux bytes jpegSigOle (jpegCandidate bytes) 100 "jpeg" dims 0
          (scanPassAux bytes pngSig (pngCandidate bytes) 100 "png" dims 0 [] (bytes.length + 1))
          (bytes.length + 1))
      obtain ⟨t4, ht4⟩ := scanPassAux_grows bytes gifSig89 (gifCandidateOle bytes)
        100 "gif" dims (bytes.length + 1) 0
        (scanPassAux bytes gifSig87 (gifCandidateOle bytes) 100 "gif" dims 0
          (scanPassAux bytes jpegSigOle (jpegCandidate bytes) 100 "jpeg" dims 0
            (scanPassAux bytes pngSig (pngCandidate bytes) 100 "png" dims 0 [] (bytes.length + 1))
            (bytes.length + 1))
          (bytes.length + 1))
      refine ⟨t1 ++ t2 ++ t3 ++ t4, ?_⟩
      simp only [extract_images_from_oleF, h1]
      rw [ht4, ht3, ht2, ht1]
      simp [List.append_assoc]
    | some b1 =>
      have ha1 := (scanPassAuxF_ok bytes pngSig (pngCandidate bytes) 100 "png" dims
        (bytes.length + 1) budget 0 []).1 a1 b1 h1
      rcases h2 : scanPassAuxF bytes jpegSigOle (jpegCandidate bytes) 100 "jpeg" dims 0 a1
          (bytes.length + 1) b1 with ⟨a2, ob2⟩
      cases ob2 with
      | none =>
        obtain ⟨t2, ht2⟩ := (scanPassAuxF_ok bytes jpegSigOle (jpegCandidate bytes) 100 "jpeg"
          dims (bytes.length + 1) b1 0 a1).2 a2 h2
        obtain ⟨t3, ht3⟩ := scanPassAux_grows bytes gifSig87 (gifCandidateOle bytes)
          100 "gif" dims (bytes.length + 1) 0
          (scanPassAux bytes jpegSigOle (jpegCandidate bytes) 100 "jpeg" dims 0 a1
            (bytes.length + 1))
        obtain ⟨t4, ht4⟩ := scanPassAux_grows bytes gifSig89 (gifCandidateOle bytes)
          100 "gif" dims (bytes.length + 1) 0
          (scanPassAux bytes gifSig87 (gifCandidateOle bytes) 100 "gif" dims 0
            (scanPassAux bytes jpegSigOle (jpegCandidate bytes) 100 "jpeg" dims 0 a1
              (bytes.length + 1))
            (bytes.length + 1))
        refine ⟨t2 ++ t3 ++ t4, ?_⟩
        simp only [extract_images_from_oleF, h1, h2]
        rw [ha1, ht4, ht3, ht2]
        simp [List.append_assoc]
      | some b2 =>
        have ha2 := (scanPassAuxF_ok bytes jpegSigOle (jpegCandidate bytes) 100 "jpeg" dims
          (bytes.length + 1) b1 0 a1).1 a2 b2 h2
        rcases h3 : scanPassAuxF bytes gifSig87 (gifCandidateOle bytes) 100 "gif" dims 0 a2
            (bytes.length + 1) b2 with ⟨a3, ob3⟩
        cases ob3 with
        | none =>
          obtain ⟨t3, ht3⟩ := (scanPassAuxF_ok bytes gifSig87 (gifCandidateOle bytes) 100 "gif"
            dims (bytes.length + 1) b2 0 a2).2 a3 h3
          obtain ⟨t4, ht4⟩ := scanPassAux_grows bytes gifSig89 (gifCandidateOle bytes)
            100 "gif" dims (bytes.length + 1) 0
            (scanPassAux bytes gifSig87 (gifCandidateOle bytes) 100 "gif" dims 0 a2
              (bytes.length + 1))
          refine ⟨t3 ++ t4, ?_⟩
          simp only [extract_images_from_oleF, h1, h2, h3]
          rw [ha1, ha2, ht4, ht3]
          simp [List.append_assoc]
        | some b3 =>
          have ha3 := (scanPassAuxF_ok bytes gifSig87 (gifCandidateOle bytes) 100 "gif" dims
            (bytes.length + 1) b2 0 a2).1 a3 b3 h3
          rcases h4 : scanPassAuxF bytes gifSig89 (gifCandidateOle bytes) 100 "gif" dims 0 a3
              (bytes.length + 1) b3 with ⟨a4, ob4⟩
          cases ob4 with
          | none =>
            obtain ⟨t4, ht4⟩ := (scanPassAuxF_ok bytes gifSig89 (gifCandidateOle bytes) 100 "gif"
              dims (bytes.length + 1) b3 0 a3).2 a4 h4
            refine ⟨t4, ?_⟩
            simp only [extract_images_from_oleF, h1, h2, h3, h4]
            rw [ha1, ha2, ha3, ht4]
          | some b4 =>
            have ha4 := (scanPassAuxF_ok bytes gifSig89 (gifCandidateOle bytes) 100 "gif" dims
              (bytes.length + 1) b3 0 a3).1 a4 b4 h4
            refine ⟨[], ?_⟩
            simp only [extract_images_from_oleF, h1, h2, h3, h4]
            rw [ha1, ha2, ha3, ha4]
            simp
  · unfold extract_images_from_xls_raw extract_images_from_xls_rawF
    rcases h : rawScanLoopF bytes dims rawSignatureList [] [] budget with ⟨acc2, ob⟩
    cases ob with
    | none =>
      obtain ⟨t, ht⟩ := (rawScanLoopF_ok bytes dims rawSignatureList [] [] budget).2 acc2 h
      exact ⟨t, by simpa using ht⟩
    | some b2 =>
      have := (rawScanLoopF_ok bytes dims rawSignatureList [] [] budget).1 acc2 b2 h
      exact ⟨[], by simpa using this⟩
